import Mathlib

/-!
Verification of the transcript segmentation and highlight-selection pipeline
of the short-form video generator.

The development shallowly embeds the three Lambda functions:
* `process-topics-bedrock/lambda_function.py` — sentence reconstitution
  (`create_timestamped_script`), model-response validation and segment merging
  (`extract_and_process_section`), retry loop, and the highlight write
  (`process_topic`);
* `extract-timeframe/lambda_function.py` — timeframe consolidation
  (`lambda_handler`) and `convert_seconds_to_timecode`.

Python floats are modelled as exact rationals (ℚ); the timestamp values in
play (transcript timestamps, seconds) are decimal fractions, exactly
representable.  Python dicts with optional keys become structures with
`Option` fields.  Fallible paths (`raise ValueError`) become `Except` /
explicit result constructors.
-/

/-- A timestamped sentence as produced by `create_timestamped_script` and
consumed by `extract_and_process_section` (keys `text`, `start_time`,
`end_time`, all present and numeric on the merge path). -/
structure Sentence where
  text : String
  start_time : ℚ
  end_time : ℚ
deriving DecidableEq, Inhabited

/-- One merged timeframe entry as appended to `timeframes` in
`extract_and_process_section`: a dict `{"text": ..., "start_time":
current_start, "end_time": current_end}` where the two time fields hold
whatever the running accumulators hold (`None` or a float). -/
structure Segment where
  text : String
  start_time : Option ℚ
  end_time : Option ℚ
deriving DecidableEq

/-- Python's `sep.join(xs)`. -/
def pyJoin (sep : String) : List String → String
  | [] => ""
  | [w] => w
  | w :: ws => w ++ sep ++ pyJoin sep ws

/-- `timestamped_script[num - 1]` — the sentence addressed by the 1-based
index `num`.  Out-of-range access (impossible for validated indices) yields
the default sentence. -/
def sentAt (script : List Sentence) (num : ℕ) : Sentence :=
  script.getD (num - 1) default

/-- `if current_start is None or s < current_start: current_start = s`. -/
def updateMin (cur : Option ℚ) (s : ℚ) : Option ℚ :=
  match cur with
  | none => some s
  | some c => some (if s < c then s else c)

/-- `if current_end is None or e > current_end: current_end = e`. -/
def updateMax (cur : Option ℚ) (e : ℚ) : Option ℚ :=
  match cur with
  | none => some e
  | some c => some (if c < e then e else c)

/-- The mutable locals of the merge loop in `extract_and_process_section`:
`text_segments`, `timeframes`, `current_segment`, `current_start`,
`current_end`. -/
structure MergeState where
  text_segments : List String
  timeframes : List Segment
  current_segment : List String
  current_start : Option ℚ
  current_end : Option ℚ
deriving DecidableEq

/-- The `if current_segment:` block that closes the current segment: append
the joined text to `text_segments`, append the timeframe dict, and reset the
accumulators.  A no-op when `current_segment` is empty. -/
def flushSegment (st : MergeState) : MergeState :=
  match st.current_segment with
  | [] => st
  | w :: ws =>
    { text_segments := st.text_segments ++ [pyJoin " " (w :: ws)]
      timeframes := st.timeframes ++
        [⟨pyJoin " " (w :: ws), st.current_start, st.current_end⟩]
      current_segment := []
      current_start := none
      current_end := none }

/-- One iteration of `for i, num in enumerate(valid_numbers)`: when a
non-consecutive boundary is detected (`i > 0 and num != valid_numbers[i-1] + 1`,
here `prev = some p` with `num ≠ p + 1`) the pending segment is flushed; then
the sentence's text is appended and the running min/max accumulators updated. -/
def mergeStep (script : List Sentence) (prev : Option ℕ) (st : MergeState)
    (num : ℕ) : MergeState :=
  let sentence := sentAt script num
  let st1 := match prev with
    | none => st
    | some p => if num ≠ p + 1 then flushSegment st else st
  { st1 with
    current_segment := st1.current_segment ++ [sentence.text]
    current_start := updateMin st1.current_start sentence.start_time
    current_end := updateMax st1.current_end sentence.end_time }

/-- The merge loop over the sorted valid numbers, threading the previous
number (`valid_numbers[i-1]`). -/
def mergeLoop (script : List Sentence) : Option ℕ → MergeState → List ℕ → MergeState
  | _, st, [] => st
  | prev, st, n :: rest => mergeLoop script (some n) (mergeStep script prev st n) rest

/-- Lines 228–269 of `extract_and_process_section`: walk the sorted valid
numbers, build `text_segments` and `timeframes`, and flush the last pending
segment.  Returns `(text_segments, timeframes)`. -/
def mergeSegments (script : List Sentence) (nums : List ℕ) :
    List String × List Segment :=
  let st := flushSegment (mergeLoop script none ⟨[], [], [], none, none⟩ nums)
  (st.text_segments, st.timeframes)

/-! ### Specification-side run decomposition

`runs` decomposes an index list into its maximal runs of consecutive
indices (`b` continues a run ending in `a` iff `b = a + 1`); it is the
reference point the merge loop is proved against. -/

/-- Decompose `l` into runs, where `r0` is the run accumulated so far and
`p` its last element. -/
def consRuns : List ℕ → ℕ → List ℕ → List (List ℕ)
  | r0, _, [] => [r0]
  | r0, p, n :: rest =>
    if n = p + 1 then consRuns (r0 ++ [n]) n rest else r0 :: consRuns [n] n rest

/-- Maximal consecutive-run decomposition of an index list. -/
def runs : List ℕ → List (List ℕ)
  | [] => []
  | n :: rest => consRuns [n] n rest

/-- The text a run of indices contributes: its sentence texts joined by
single spaces. -/
def runText (script : List Sentence) (r : List ℕ) : String :=
  pyJoin " " (r.map fun n => (sentAt script n).text)

/-- Running-minimum of the start times over a run (the shape the merge loop
accumulates `current_start` in). -/
def accMin (script : List Sentence) (r : List ℕ) : Option ℚ :=
  r.foldl (fun c n => updateMin c (sentAt script n).start_time) none

/-- Running-maximum of the end times over a run. -/
def accMax (script : List Sentence) (r : List ℕ) : Option ℚ :=
  r.foldl (fun c n => updateMax c (sentAt script n).end_time) none

/-- The segment a run of consecutive indices produces. -/
def segOfRun (script : List Sentence) (r : List ℕ) : Segment :=
  ⟨runText script r, accMin script r, accMax script r⟩

/-- The intermediate merge state corresponding to finished runs
`dts`/`dfs` and a pending run `r0`. -/
def runState (script : List Sentence) (dts : List String) (dfs : List Segment)
    (r0 : List ℕ) : MergeState :=
  ⟨dts, dfs, r0.map (fun n => (sentAt script n).text),
    accMin script r0, accMax script r0⟩

/-! ### Model-response validation (`extract_and_process_section`, lines 193–226)

The transport and JSON decoding are abstracted: a model reply either fails to
parse as JSON between its outermost braces (`badJson`) or yields a parsed
object (`Chunk`) whose `selected_numbers` field, when present, is a list of
raw JSON values.  Everything after that point is embedded concretely. -/

/-- A raw element of `selected_numbers`: a JSON string (coerced via
`int(num.strip())`), an integer, a float (`int` truncates toward zero), or a
value on which `int()` raises (`null`, arrays, objects...). -/
inductive RawNum
  | rstr (s : String)
  | rint (n : ℤ)
  | rfloat (q : ℚ)
  | rbad
deriving DecidableEq

/-- Python `str.strip()` (whitespace from both ends). -/
def pyStrip (s : String) : String :=
  ⟨((s.data.dropWhile Char.isWhitespace).reverse.dropWhile Char.isWhitespace).reverse⟩

/-- Value of a non-empty all-digit character list, `none` otherwise. -/
def decDigitsVal : List Char → Option ℕ
  | [] => none
  | cs =>
    if cs.all (fun c => c.isDigit) then
      some (cs.foldl (fun a c => a * 10 + (c.toNat - 48)) 0)
    else none

/-- Python `int(s)` on an already-stripped string: optional sign followed by
decimal digits, else a `ValueError` (`none`).  (Digit-group underscores and
non-ASCII digits are not modelled.) -/
def pyStrToInt (s : String) : Option ℤ :=
  match (pyStrip s).data with
  | '-' :: rest => (decDigitsVal rest).map (fun n => -(n : ℤ))
  | '+' :: rest => (decDigitsVal rest).map (fun n => (n : ℤ))
  | cs => (decDigitsVal cs).map (fun n => (n : ℤ))

/-- Truncation toward zero — Python `int()` applied to a float. -/
def truncRat (q : ℚ) : ℤ :=
  if 0 ≤ q then ⌊q⌋ else ⌈q⌉

/-- The `try: num = int(...)` coercion of one raw element: `none` means the
`(ValueError, TypeError)` branch (element ignored with a warning). -/
def coerceOne : RawNum → Option ℤ
  | .rstr s => pyStrToInt s
  | .rint n => some n
  | .rfloat q => some (truncRat q)
  | .rbad => none

/-- Coercion plus the range test `1 <= num <= len(timestamped_script)`:
the valid 1-based index this element contributes, if any. -/
def coerceValid (count : ℕ) (r : RawNum) : Option ℕ :=
  (coerceOne r).bind (fun n => if 1 ≤ n ∧ n ≤ (count : ℤ) then some n.toNat else none)

/-- The `valid_numbers` list accumulated by the validation loop. -/
def validNumbers (count : ℕ) (raw : List RawNum) : List ℕ :=
  raw.filterMap (coerceValid count)

/-- Stable insertion used by `pySort`: `a` is placed after every earlier
element strictly below it and before the rest. -/
def pyInsert (lt : α → α → Bool) (a : α) : List α → List α
  | [] => [a]
  | b :: l => if lt b a then b :: pyInsert lt a l else a :: b :: l

/-- Python `list.sort()` (stable, comparison by `lt`). -/
def pySort (lt : α → α → Bool) : List α → List α
  | [] => []
  | a :: l => pyInsert lt a (pySort lt l)

/-- The parsed JSON object from the model reply (`chunk`). -/
structure Chunk where
  VideoTitle : Option String
  selected_numbers : Option (List RawNum)

/-- A model reply: the substring between the outermost braces either fails
`json.loads` or parses to a `Chunk`. -/
inductive ModelResponse
  | badJson
  | parsed (chunk : Chunk)

/-- The result `{'text':…, 'timeframes':…, 'VideoTitle':…}` of
`extract_and_process_section`. -/
structure SectionData where
  text : String
  timeframes : List Segment
  VideoTitle : String
deriving DecidableEq

/-- Lines 193–280 of `extract_and_process_section` (the body of the `try`
after a reply arrives): check `selected_numbers` exists, coerce and
range-filter, fail on an empty valid set, sort ascending, merge runs, and
join the segment texts with the literal `" [...] "`. -/
def processChunk (script : List Sentence) (chunk : Chunk) : Except String SectionData :=
  match chunk.selected_numbers with
  | none => .error "Invalid response format: missing 'selected_numbers'"
  | some raw =>
    match validNumbers script.length raw with
    | [] => .error "No valid sentence numbers found"
    | v :: vs =>
      let sorted := pySort (fun a b => decide (a < b)) (v :: vs)
      let merged := mergeSegments script sorted
      .ok ⟨pyJoin " [...] " merged.1, merged.2, chunk.VideoTitle.getD ""⟩

/-- Handling of one model reply: a JSON decoding failure or the validation
pipeline (`ValueError`s propagate as `.error`). -/
def processResponse (script : List Sentence) : ModelResponse → Except String SectionData
  | .badJson => .error "json.loads failed"
  | .parsed chunk => processChunk script chunk

/-! ### The retry loop (`extract_and_process_section`, lines 175–291) -/

/-- The outcome of one `bedrock.invoke_model` call: either a reply (whose
body may still fail validation) or a `ClientError` carrying its error code. -/
inductive CallOutcome
  | modelReply (resp : ModelResponse)
  | clientError (code : String)

/-- Result of the `while True` loop. -/
inductive LoopResult
  | ok (d : SectionData)
  | errClient (code : String)
  | errValue (msg : String)
  | noOutcome
deriving DecidableEq

/-- The `while True` retry loop, driven by the sequence of call outcomes;
`rc` is `retry_count`.  Returns the result together with the list of
`time.sleep` durations (seconds).  A `ThrottlingException` is retried while
`retry_count < max_retries = 30` with backoff `min(2 ** (retry_count - 1),
max_backoff = 16)` computed after incrementing; every other `ClientError`,
and every `ValueError` from validation, propagates at once.  (`noOutcome` is
an artefact of driving the loop with a finite outcome list.) -/
def runRetry (script : List Sentence) : List CallOutcome → ℕ → LoopResult × List ℕ
  | [], _ => (.noOutcome, [])
  | .modelReply resp :: _, _ =>
    match processResponse script resp with
    | .ok d => (.ok d, [])
    | .error m => (.errValue m, [])
  | .clientError code :: rest, rc =>
    if code = "ThrottlingException" ∧ rc < 30 then
      let r := runRetry script rest (rc + 1)
      (r.1, min (2 ^ rc) 16 :: r.2)
    else (.errClient code, [])

/-- `extract_and_process_section` as a whole: the retry loop entered with
`retry_count = 0`. -/
def extract_and_process_section (script : List Sentence) (outcomes : List CallOutcome) :
    LoopResult × List ℕ :=
  runRetry script outcomes 0

/-! ### The highlight write (`process_topic`, lines 101–122) -/

/-- A UTC clock reading, as returned by `datetime.datetime.now(datetime.UTC)`. -/
structure PyDateTime where
  year : ℕ
  month : ℕ
  day : ℕ
  hour : ℕ
  minute : ℕ
  second : ℕ
  microsecond : ℕ
deriving DecidableEq

/-- Decimal digits of `n` zero-padded to width `w` (as characters). -/
def padNum (w n : ℕ) : List Char :=
  let ds := Nat.toDigits 10 n
  List.replicate (w - ds.length) '0' ++ ds

/-- The date-and-time core of `datetime.isoformat()`, up to whole seconds:
`YYYY-MM-DDTHH:MM:SS`. -/
def isoBase (d : PyDateTime) : List Char :=
  padNum 4 d.year ++ ['-'] ++ padNum 2 d.month ++ ['-'] ++ padNum 2 d.day ++ ['T'] ++
    padNum 2 d.hour ++ [':'] ++ padNum 2 d.minute ++ [':'] ++ padNum 2 d.second

/-- `datetime.isoformat()` of a timezone-aware UTC datetime: the fractional
part `.ffffff` appears only when `microsecond` is non-zero, and the string
ends with the UTC offset `+00:00`. -/
def isoformatUTC (d : PyDateTime) : List Char :=
  isoBase d ++ (if d.microsecond = 0 then [] else '.' :: padNum 6 d.microsecond) ++
    ['+', '0', '0', ':', '0', '0']

/-- `datetime.datetime.now(datetime.UTC).isoformat()[:-6] + "Z"` — the
timestamp stored in `createdAt`/`updatedAt`.  (Python slicing is by
character; the timestamp is modelled as its character list.) -/
def highlightTimestamp (d : PyDateTime) : List Char :=
  (isoformatUTC d).take ((isoformatUTC d).length - 6) ++ ['Z']

/-- The item written by `shorts.put_item` in `process_topic`. -/
structure Highlight where
  Text : String
  Question : String
  Index : String
  VideoName : String
  createdAt : List Char
  updatedAt : List Char
  owner : String
  timeframes : List Segment
deriving DecidableEq

/-- `process_topic`: run the extraction; on success build the highlight item
and write it (the returned list holds the items put to the metadata store —
empty when the extraction raised). -/
def process_topic (script : List Sentence) (outcomes : List CallOutcome)
    (topic uuid owner : String) (index : ℕ) (now : PyDateTime) :
    LoopResult × List Highlight :=
  match extract_and_process_section script outcomes with
  | (.ok d, _) =>
    (.ok d,
      [{ Text := d.text
         Question := topic
         Index := toString index
         VideoName := uuid
         createdAt := highlightTimestamp now
         updatedAt := highlightTimestamp now
         owner := owner
         timeframes := d.timeframes }])
  | (r, _) => (r, [])

/-! ### `extract-timeframe`: timecode conversion and consolidation -/

/-- `"{:02d}".format(n)` — decimal rendering zero-padded to width two. -/
def fmt2 (n : ℤ) : String :=
  if 0 ≤ n ∧ n < 10 then "0" ++ toString n else toString n

/-- `convert_seconds_to_timecode` — `divmod` on non-integral values floors
the quotient and leaves the remainder; `int()` truncates toward zero (it
also collapses the integer-valued floats `hours` and `minutes`, whose value
`⌊·⌋` already is). -/
def convert_seconds_to_timecode (s : ℚ) : String :=
  let hours : ℤ := ⌊s / 3600⌋
  let r1 : ℚ := s - 3600 * (hours : ℚ)
  let minutes : ℤ := ⌊r1 / 60⌋
  let r2 : ℚ := r1 - 60 * (minutes : ℚ)
  let frames : ℤ := truncRat ((r2 - (truncRat r2 : ℚ)) * 24)
  fmt2 hours ++ ":" ++ fmt2 minutes ++ ":" ++ fmt2 (truncRat r2) ++ ":" ++ fmt2 frames

/-- The timecode conversion exactly as the specification words it: floors
throughout, frames `= ⌊fractional_part * 24⌋`. -/
def specTimecode (s : ℚ) : String :=
  let hours : ℤ := ⌊s / 3600⌋
  let r1 : ℚ := s - 3600 * (hours : ℚ)
  let minutes : ℤ := ⌊r1 / 60⌋
  let r2 : ℚ := r1 - 60 * (minutes : ℚ)
  let frames : ℤ := ⌊(r2 - (⌊r2⌋ : ℚ)) * 24⌋
  fmt2 hours ++ ":" ++ fmt2 minutes ++ ":" ++ fmt2 ⌊r2⌋ ++ ":" ++ fmt2 frames

/-- One entry of the stored `timeframes` JSON list, as a dict with optional
keys: raw segments carry `text`/`start_time`/`end_time`, consolidated
entries carry `StartTimecode`/`EndTimecode`. -/
structure StoredFrame where
  text : Option String
  start_time : Option ℚ
  end_time : Option ℚ
  StartTimecode : Option String
  EndTimecode : Option String
deriving DecidableEq

/-- The result fields of the `extract-timeframe` handler that the claims
speak about. -/
structure ConsolidateOutput where
  statusCode : ℕ
  success : Bool
  duration : ℤ
  timeframes : List (String × String)
deriving DecidableEq

/-- The `(float(start_time), float(end_time))` pairs kept by the parsing
loop — entries with either timestamp missing are discarded. -/
def keptPairs (tfs : List StoredFrame) : List (ℚ × ℚ) :=
  tfs.filterMap (fun f =>
    match f.start_time, f.end_time with
    | some s, some e => some (s, e)
    | _, _ => none)

/-- Lines 46–117 of the `extract-timeframe` handler: keep fully-timestamped
entries, sort by start time (`timeframes.sort(key=lambda x: x[0])`), bail
out with a 400 result when nothing is left, else sum the spans
(`int`-truncated) and render both ends of each pair as timecodes. -/
def consolidate (tfs : List StoredFrame) : ConsolidateOutput :=
  match pySort (fun a b => decide (a.1 < b.1)) (keptPairs tfs) with
  | [] => ⟨400, false, 0, []⟩
  | t :: ts =>
    ⟨200, true,
      truncRat (((t :: ts).map (fun p => p.2 - p.1)).sum),
      (t :: ts).map (fun p =>
        (convert_seconds_to_timecode p.1, convert_seconds_to_timecode p.2))⟩

/-- The `update_item` overwrite of the record's `timeframes` attribute: on
success it becomes the serialized formatted list (entries that only carry
`StartTimecode`/`EndTimecode`); on the 400 path the handler returns before
updating. -/
def updateRecord (tfs : List StoredFrame) : List StoredFrame :=
  if (consolidate tfs).success then
    (consolidate tfs).timeframes.map (fun p => ⟨none, none, none, some p.1, some p.2⟩)
  else tfs

/-! ### `create_timestamped_script` (sentence reconstitution) -/

/-- One entry of `results.items`: a `pronunciation` item (word with
timestamps) or a `punctuation` item. -/
inductive TranscriptEvent
  | word (w : String) (start_time end_time : ℚ)
  | punct (p : String)
deriving DecidableEq

/-- A sentence dict as emitted by `create_timestamped_script`; the time
fields hold whatever `sentence_start_time` / `last_end_time` hold at
emission time (possibly `None`). -/
structure RSentence where
  text : String
  start_time : Option ℚ
  end_time : Option ℚ
deriving DecidableEq

/-- `current_sentence[-1] += punctuation`, guarded by `if current_sentence:`. -/
def appendToLast (p : String) : List String → List String
  | [] => []
  | [w] => [w ++ p]
  | w :: ws => w :: appendToLast p ws

/-- The loop state of `create_timestamped_script`: the emitted sentences,
`current_sentence`, `sentence_start_time`, `last_end_time`. -/
structure RecState where
  script : List RSentence
  current : List String
  sstart : Option ℚ
  lend : Option ℚ
deriving DecidableEq

/-- One iteration of the `for item in items:` loop.  Note the sentence
emission on a terminator (`.`, `?`, `!`) is *not* guarded by
`if current_sentence:` — only the in-place punctuation append is. -/
def stepEvent (st : RecState) : TranscriptEvent → RecState
  | .word w s e =>
    { script := st.script
      current := st.current ++ [w]
      sstart := match st.sstart with | none => some s | some a => some a
      lend := some e }
  | .punct p =>
    let cur := appendToLast p st.current
    if p ∈ ([".", "?", "!"] : List String) then
      { script := st.script ++ [⟨pyJoin " " cur, st.sstart, st.lend⟩]
        current := []
        sstart := none
        lend := st.lend }
    else
      { st with current := cur }

/-- `create_timestamped_script`: fold the events, then flush a trailing
unterminated sentence (`if current_sentence and sentence_start_time is not
None:`). -/
def create_timestamped_script (events : List TranscriptEvent) : List RSentence :=
  let st := events.foldl stepEvent ⟨[], [], none, none⟩
  if st.current ≠ [] ∧ st.sstart.isSome then
    st.script ++ [⟨pyJoin " " st.current, st.sstart, st.lend⟩]
  else st.script


/-! ### Specification predicates for the reconstitutor -/

/-- The well-formedness the specification claims of every emitted sentence,
adjusted for the empty-emission path: a sentence formed from at least one
word has non-empty text and ordered `some` timestamps; the sentences a
terminator emits from an empty accumulator have empty text and no start
time. -/
abbrev GoodSentence (s : RSentence) : Prop :=
  (s.text ≠ "" ∧ ∃ a b, s.start_time = some a ∧ s.end_time = some b ∧ a ≤ b)
  ∨ (s.text = "" ∧ s.start_time = none)

/-- Well-formed transcript events: words are non-empty and carry ordered
timestamps. -/
def WFEvent : TranscriptEvent → Prop
  | .word w s e => w ≠ "" ∧ s ≤ e
  | .punct _ => True

/-- The start times of the word events, in stream order. -/
def wordStarts : List TranscriptEvent → List ℚ :=
  List.filterMap (fun ev => match ev with
    | .word _ s _ => some s
    | .punct _ => none)

/-- Invariant of the reconstitution loop state. -/
abbrev RecInv (st : RecState) : Prop :=
  (∀ s ∈ st.script, GoodSentence s)
  ∧ (st.current = [] ↔ st.sstart = none)
  ∧ (∀ w ∈ st.current, w ≠ "")
  ∧ (∀ a, st.sstart = some a → ∃ e, st.lend = some e ∧ a ≤ e)

/-! ### Demonstration inputs -/

/-- A 40-sentence demonstration script: sentence `n` has text `"s<n>"`,
start time `n` and end time `n + 1`. -/
def demoScript : List Sentence :=
  (List.range 40).map (fun i => ⟨"s" ++ toString (i + 1), ((i + 1 : ℕ) : ℚ), ((i + 2 : ℕ) : ℚ)⟩)


/-- A one-sentence script. -/
def oneSentence : List Sentence := [⟨"a", 0, 1⟩]

/-- A concrete UTC clock reading with a non-zero microsecond component. -/
def demoNow : PyDateTime := ⟨2024, 5, 6, 7, 8, 9, 123456⟩

/-- Two stored raw segments, deliberately out of chronological order. -/
def demoFrames : List StoredFrame :=
  [⟨some "x", some 90, some 120, none, none⟩, ⟨some "y", some 10, some 40, none, none⟩]

/-- A single stored raw segment spanning 10s–40s. -/
def oneFrame : List StoredFrame := [⟨some "t", some 10, some 40, none, none⟩]

/-! ### The merge loop computes exactly one segment per maximal run -/

theorem accMin_append (script : List Sentence) (r0 : List ℕ) (n : ℕ) :
    accMin script (r0 ++ [n]) = updateMin (accMin script r0) (sentAt script n).start_time := by
  simp [accMin, List.foldl_append]

theorem accMax_append (script : List Sentence) (r0 : List ℕ) (n : ℕ) :
    accMax script (r0 ++ [n]) = updateMax (accMax script r0) (sentAt script n).end_time := by
  simp [accMax, List.foldl_append]

theorem mergeLoop_runState (script : List Sentence) (nums : List ℕ) :
    ∀ (r0 : List ℕ) (p : ℕ) (dts : List String) (dfs : List Segment), r0 ≠ [] →
      flushSegment (mergeLoop script (some p) (runState script dts dfs r0) nums)
        = ⟨dts ++ (consRuns r0 p nums).map (runText script),
           dfs ++ (consRuns r0 p nums).map (segOfRun script), [], none, none⟩ := by
  induction nums with
  | nil =>
    intro r0 p dts dfs h
    match r0, h with
    | w :: ws, _ =>
      simp [mergeLoop, flushSegment, runState, consRuns, runText, segOfRun]
  | cons n rest ih =>
    intro r0 p dts dfs h
    by_cases hc : n = p + 1
    · have hstep : mergeStep script (some p) (runState script dts dfs r0) n
          = runState script dts dfs (r0 ++ [n]) := by
        simp [mergeStep, runState, hc, accMin_append, accMax_append]
    -- one loop iteration, then the induction hypothesis on the extended run
      rw [show mergeLoop script (some p) (runState script dts dfs r0) (n :: rest)
            = mergeLoop script (some n)
                (mergeStep script (some p) (runState script dts dfs r0) n) rest from rfl,
          hstep, ih (r0 ++ [n]) n dts dfs (by simp)]
      simp [consRuns, hc]
    · have hstep : mergeStep script (some p) (runState script dts dfs r0) n
          = runState script (dts ++ [runText script r0]) (dfs ++ [segOfRun script r0]) [n] := by
        match r0, h with
        | w :: ws, _ =>
          simp [mergeStep, hc, flushSegment, runState, runText, segOfRun,
            accMin, accMax, updateMin, updateMax]
      rw [show mergeLoop script (some p) (runState script dts dfs r0) (n :: rest)
            = mergeLoop script (some n)
                (mergeStep script (some p) (runState script dts dfs r0) n) rest from rfl,
          hstep, ih [n] n _ _ (by simp)]
      simp [consRuns, hc]

theorem mergeSegments_eq_runs (script : List Sentence) (nums : List ℕ) :
    mergeSegments script nums
      = ((runs nums).map (runText script), (runs nums).map (segOfRun script)) := by
  cases nums with
  | nil => rfl
  | cons n rest =>
    have hstep : mergeStep script none ⟨[], [], [], none, none⟩ n
        = runState script [] [] [n] := by
      simp [mergeStep, runState, accMin, accMax, updateMin, updateMax]
    unfold mergeSegments
    rw [show mergeLoop script none ⟨[], [], [], none, none⟩ (n :: rest)
          = mergeLoop script (some n)
              (mergeStep script none ⟨[], [], [], none, none⟩ n) rest from rfl,
        hstep, mergeLoop_runState script rest [n] n [] [] (by simp)]
    simp [runs]

/-! ### `runs` is the maximal consecutive-run decomposition -/

theorem consRuns_flatten (l : List ℕ) :
    ∀ r0 p, (consRuns r0 p l).flatten = r0 ++ l := by
  induction l with
  | nil => intro r0 p; simp [consRuns]
  | cons n rest ih =>
    intro r0 p
    by_cases hc : n = p + 1
    · simp [consRuns, hc, ih]
    · simp [consRuns, hc, ih]

theorem consRuns_chains (l : List ℕ) :
    ∀ r0 p, r0 ≠ [] → r0.getLast? = some p → List.Chain' (fun a b => b = a + 1) r0 →
    ∀ r ∈ consRuns r0 p l, r ≠ [] ∧ List.Chain' (fun a b => b = a + 1) r := by
  induction l with
  | nil =>
    intro r0 p h0 _ hch r hr
    simp only [consRuns, List.mem_singleton] at hr
    exact hr ▸ ⟨h0, hch⟩
  | cons n rest ih =>
    intro r0 p h0 hl hch r hr
    by_cases hc : n = p + 1
    · rw [consRuns, if_pos hc] at hr
      refine ih (r0 ++ [n]) n (by simp) (by simp) ?_ r hr
      rw [List.chain'_append]
      refine ⟨hch, List.chain'_singleton n, ?_⟩
      intro a ha b hb
      rw [hl] at ha
      simp only [Option.mem_def, Option.some_inj] at ha
      simp only [List.head?_cons, Option.mem_def, Option.some_inj] at hb
      subst ha
      subst hb
      exact hc
    · rw [consRuns, if_neg hc] at hr
      rcases List.mem_cons.mp hr with h | h
      · exact h ▸ ⟨h0, hch⟩
      · exact ih [n] n (by simp) (by simp) (by simp) r h

theorem consRuns_head_ext (l : List ℕ) :
    ∀ r0 p, ∃ t rs, consRuns r0 p l = (r0 ++ t) :: rs := by
  induction l with
  | nil => intro r0 p; exact ⟨[], [], by simp [consRuns]⟩
  | cons n rest ih =>
    intro r0 p
    by_cases hc : n = p + 1
    · obtain ⟨t, rs, h⟩ := ih (r0 ++ [n]) n
      refine ⟨[n] ++ t, rs, ?_⟩
      rw [consRuns, if_pos hc, h]
      simp
    · exact ⟨[], consRuns [n] n rest, by rw [consRuns, if_neg hc]; simp⟩

theorem consRuns_boundary (l : List ℕ) :
    ∀ r0 p, r0.getLast? = some p →
    List.Chain' (fun r1 r2 => ∀ a ∈ r1.getLast?, ∀ b ∈ r2.head?, b ≠ a + 1)
      (consRuns r0 p l) := by
  induction l with
  | nil => intro r0 p _; simp [consRuns]
  | cons n rest ih =>
    intro r0 p hl
    by_cases hc : n = p + 1
    · rw [consRuns, if_pos hc]
      exact ih (r0 ++ [n]) n (by simp)
    · rw [consRuns, if_neg hc]
      obtain ⟨t, rs, hext⟩ := consRuns_head_ext rest [n] n
      rw [hext]
      rw [List.chain'_cons]
      constructor
      · intro a ha b hb
        rw [hl] at ha
        simp only [Option.mem_def, Option.some_inj] at ha
        simp only [List.cons_append, List.head?_cons, Option.mem_def, Option.some_inj] at hb
        subst ha
        subst hb
        exact hc
      · exact hext ▸ ih [n] n (by simp)

/-! ### The running min/max accumulators compute the run minimum/maximum -/

theorem foldl_updateMin_some (script : List Sentence) (r : List ℕ) :
    ∀ c, ∃ m,
      r.foldl (fun c n => updateMin c (sentAt script n).start_time) (some c) = some m
      ∧ m ≤ c ∧ (∀ n ∈ r, m ≤ (sentAt script n).start_time)
      ∧ (m = c ∨ ∃ n ∈ r, m = (sentAt script n).start_time) := by
  induction r with
  | nil => intro c; exact ⟨c, rfl, le_refl c, by simp, Or.inl rfl⟩
  | cons n rest ih =>
    intro c
    obtain ⟨m, h1, h2, h3, h4⟩ :=
      ih (if (sentAt script n).start_time < c then (sentAt script n).start_time else c)
    refine ⟨m, by simpa [updateMin] using h1, ?_, ?_, ?_⟩
    · by_cases hsc : (sentAt script n).start_time < c
      · rw [if_pos hsc] at h2; exact le_of_lt (lt_of_le_of_lt h2 hsc)
      · rw [if_neg hsc] at h2; exact h2
    · intro x hx
      rcases List.mem_cons.mp hx with h | h
      · by_cases hsc : (sentAt script n).start_time < c
        · rw [if_pos hsc] at h2; exact h ▸ h2
        · rw [if_neg hsc] at h2; exact h ▸ le_trans h2 (le_of_not_lt hsc)
      · exact h3 x h
    · by_cases hsc : (sentAt script n).start_time < c
      · rw [if_pos hsc] at h4
        rcases h4 with h | ⟨x, hx, hm⟩
        · exact Or.inr ⟨n, List.mem_cons_self n rest, h⟩
        · exact Or.inr ⟨x, List.mem_cons_of_mem n hx, hm⟩
      · rw [if_neg hsc] at h4
        rcases h4 with h | ⟨x, hx, hm⟩
        · exact Or.inl h
        · exact Or.inr ⟨x, List.mem_cons_of_mem n hx, hm⟩

theorem foldl_updateMax_some (script : List Sentence) (r : List ℕ) :
    ∀ c, ∃ m,
      r.foldl (fun c n => updateMax c (sentAt script n).end_time) (some c) = some m
      ∧ c ≤ m ∧ (∀ n ∈ r, (sentAt script n).end_time ≤ m)
      ∧ (m = c ∨ ∃ n ∈ r, m = (sentAt script n).end_time) := by
  induction r with
  | nil => intro c; exact ⟨c, rfl, le_refl c, by simp, Or.inl rfl⟩
  | cons n rest ih =>
    intro c
    obtain ⟨m, h1, h2, h3, h4⟩ :=
      ih (if c < (sentAt script n).end_time then (sentAt script n).end_time else c)
    refine ⟨m, by simpa [updateMax] using h1, ?_, ?_, ?_⟩
    · by_cases hsc : c < (sentAt script n).end_time
      · rw [if_pos hsc] at h2; exact le_of_lt (lt_of_lt_of_le hsc h2)
      · rw [if_neg hsc] at h2; exact h2
    · intro x hx
      rcases List.mem_cons.mp hx with h | h
      · by_cases hsc : c < (sentAt script n).end_time
        · rw [if_pos hsc] at h2; exact h ▸ h2
        · rw [if_neg hsc] at h2; exact h ▸ le_trans (le_of_not_lt hsc) h2
      · exact h3 x h
    · by_cases hsc : c < (sentAt script n).end_time
      · rw [if_pos hsc] at h4
        rcases h4 with h | ⟨x, hx, hm⟩
        · exact Or.inr ⟨n, List.mem_cons_self n rest, h⟩
        · exact Or.inr ⟨x, List.mem_cons_of_mem n hx, hm⟩
      · rw [if_neg hsc] at h4
        rcases h4 with h | ⟨x, hx, hm⟩
        · exact Or.inl h
        · exact Or.inr ⟨x, List.mem_cons_of_mem n hx, hm⟩

theorem accMin_spec (script : List Sentence) (r : List ℕ) (h : r ≠ []) :
    ∃ m, accMin script r = some m
      ∧ (∀ n ∈ r, m ≤ (sentAt script n).start_time)
      ∧ (∃ n ∈ r, m = (sentAt script n).start_time) := by
  match r, h with
  | n :: rest, _ =>
    obtain ⟨m, h1, h2, h3, h4⟩ := foldl_updateMin_some script rest (sentAt script n).start_time
    refine ⟨m, by simpa [accMin, updateMin] using h1, ?_, ?_⟩
    · intro x hx
      rcases List.mem_cons.mp hx with hh | hh
      · exact hh ▸ h2
      · exact h3 x hh
    · rcases h4 with hh | ⟨x, hx, hm⟩
      · exact ⟨n, List.mem_cons_self n rest, hh⟩
      · exact ⟨x, List.mem_cons_of_mem n hx, hm⟩

theorem accMax_spec (script : List Sentence) (r : List ℕ) (h : r ≠ []) :
    ∃ m, accMax script r = some m
      ∧ (∀ n ∈ r, (sentAt script n).end_time ≤ m)
      ∧ (∃ n ∈ r, m = (sentAt script n).end_time) := by
  match r, h with
  | n :: rest, _ =>
    obtain ⟨m, h1, h2, h3, h4⟩ := foldl_updateMax_some script rest (sentAt script n).end_time
    refine ⟨m, by simpa [accMax, updateMax] using h1, ?_, ?_⟩
    · intro x hx
      rcases List.mem_cons.mp hx with hh | hh
      · exact hh ▸ h2
      · exact h3 x hh
    · rcases h4 with hh | ⟨x, hx, hm⟩
      · exact ⟨n, List.mem_cons_self n rest, hh⟩
      · exact ⟨x, List.mem_cons_of_mem n hx, hm⟩

/-! ### `pySort` is a permutation that sorts -/

theorem pyInsert_perm (lt : α → α → Bool) (a : α) (l : List α) :
    List.Perm (pyInsert lt a l) (a :: l) := by
  induction l with
  | nil => exact List.Perm.refl _
  | cons b l ih =>
    cases hlt : lt b a with
    | true =>
      rw [pyInsert, if_pos hlt]
      exact (ih.cons b).trans (List.Perm.swap a b l)
    | false =>
      rw [pyInsert, if_neg (by simp [hlt])]

theorem pySort_perm (lt : α → α → Bool) (l : List α) :
    List.Perm (pySort lt l) l := by
  induction l with
  | nil => exact List.Perm.refl _
  | cons a l ih => exact (pyInsert_perm lt a (pySort lt l)).trans (ih.cons a)

theorem pyInsert_pairwise (lt : α → α → Bool)
    (hasym : ∀ a b, lt a b = true → lt b a = false)
    (htrans : ∀ a b c, lt b a = false → lt c b = false → lt c a = false)
    (a : α) (l : List α)
    (hl : List.Pairwise (fun x y => lt y x = false) l) :
    List.Pairwise (fun x y => lt y x = false) (pyInsert lt a l) := by
  induction l with
  | nil => simp [pyInsert]
  | cons b l ih =>
    rcases List.pairwise_cons.mp hl with ⟨hb, hl2⟩
    cases hlt : lt b a with
    | true =>
      rw [pyInsert, if_pos hlt]
      refine List.pairwise_cons.mpr ⟨?_, ih hl2⟩
      intro x hx
      have hx2 := (pyInsert_perm lt a l).mem_iff.mp hx
      rcases List.mem_cons.mp hx2 with h | h
      · exact h ▸ hasym b a hlt
      · exact hb x h
    | false =>
      rw [pyInsert, if_neg (by simp [hlt])]
      refine List.pairwise_cons.mpr ⟨?_, hl⟩
      intro x hx
      rcases List.mem_cons.mp hx with h | h
      · exact h ▸ hlt
      · exact htrans a b x hlt (hb x h)

theorem pySort_pairwise (lt : α → α → Bool)
    (hasym : ∀ a b, lt a b = true → lt b a = false)
    (htrans : ∀ a b c, lt b a = false → lt c b = false → lt c a = false)
    (l : List α) :
    List.Pairwise (fun x y => lt y x = false) (pySort lt l) := by
  induction l with
  | nil => simp [pySort]
  | cons a l ih => exact pyInsert_pairwise lt hasym htrans a (pySort lt l) ih


/-! ### Claim theorems -/

/-- **C1.** The merge step groups each maximal run of consecutive indices
(`b` consecutive to `a` iff `b = a + 1`) into exactly one Segment: the
output of `mergeSegments` is the run decomposition mapped through
per-run aggregation, where `runs` really is the maximal-run decomposition
(it flattens back to the input, every run is a non-empty consecutive chain,
and adjacent runs do not chain), and the per-run segment carries the
minimum start time, the maximum end time and the space-joined text of the
run's sentences.  In particular `[15,…,20]` yields one Segment spanning
sentence 15's start (15) to sentence 20's end (21) with no `" [...] "`
separator in the final text, and `[23,24,28,29,35,36]` yields three
Segments and a final text with exactly two `" [...] "` separators. -/
theorem merge_groups_maximal_runs :
    (∀ script nums, mergeSegments script nums
        = ((runs nums).map (runText script), (runs nums).map (segOfRun script)))
    ∧ (∀ nums, (runs nums).flatten = nums)
    ∧ (∀ nums r, r ∈ runs nums → r ≠ [] ∧ List.Chain' (fun a b => b = a + 1) r)
    ∧ (∀ nums, List.Chain'
        (fun r1 r2 => ∀ a ∈ r1.getLast?, ∀ b ∈ r2.head?, b ≠ a + 1) (runs nums))
    ∧ (∀ script r, r ≠ [] →
        ∃ m M, segOfRun script r = ⟨runText script r, some m, some M⟩
          ∧ (∀ n ∈ r, m ≤ (sentAt script n).start_time ∧ (sentAt script n).end_time ≤ M)
          ∧ (∃ n ∈ r, m = (sentAt script n).start_time)
          ∧ (∃ n ∈ r, M = (sentAt script n).end_time))
    ∧ processChunk demoScript
        ⟨some "T", some [.rint 15, .rint 16, .rint 17, .rint 18, .rint 19, .rint 20]⟩
        = .ok ⟨"s15 s16 s17 s18 s19 s20",
               [⟨"s15 s16 s17 s18 s19 s20", some 15, some 21⟩], "T"⟩
    ∧ processChunk demoScript
        ⟨some "T", some [.rint 23, .rint 24, .rint 28, .rint 29, .rint 35, .rint 36]⟩
        = .ok ⟨"s23 s24" ++ " [...] " ++ "s28 s29" ++ " [...] " ++ "s35 s36",
               [⟨"s23 s24", some 23, some 25⟩, ⟨"s28 s29", some 28, some 30⟩,
                ⟨"s35 s36", some 35, some 37⟩], "T"⟩ := by
  refine ⟨mergeSegments_eq_runs, ?_, ?_, ?_, ?_, ?_, ?_⟩
  · intro nums
    cases nums with
    | nil => rfl
    | cons n rest => simpa [runs] using consRuns_flatten rest [n] n
  · intro nums r hr
    cases nums with
    | nil => simp [runs] at hr
    | cons n rest =>
      exact consRuns_chains rest [n] n (by simp) (by simp) (by simp) r (by simpa [runs] using hr)
  · intro nums
    cases nums with
    | nil => simp [runs]
    | cons n rest => simpa [runs] using consRuns_boundary rest [n] n (by simp)
  · intro script r hr
    obtain ⟨m, hm1, hm2, hm3⟩ := accMin_spec script r hr
    obtain ⟨M, hM1, hM2, hM3⟩ := accMax_spec script r hr
    refine ⟨m, M, by simp [segOfRun, hm1, hM1], ?_, hm3, hM3⟩
    intro n hn
    exact ⟨hm2 n hn, hM2 n hn⟩
  · rfl
  · rfl


/-- **C10.** For a non-empty sorted list of valid indices whose referenced
sentences each satisfy start ≤ end, every Segment the merge produces has
`some` timestamps with start ≤ end, the timeframes list is non-empty, and it
has exactly one entry per text segment joined into the final text. -/
theorem merge_segment_invariants (script : List Sentence) (nums : List ℕ)
    (hne : nums ≠ []) (hsorted : List.Pairwise (· ≤ ·) nums)
    (hvalid : ∀ n ∈ nums, 1 ≤ n ∧ n ≤ script.length)
    (hwf : ∀ n ∈ nums, (sentAt script n).start_time ≤ (sentAt script n).end_time) :
    (∀ seg ∈ (mergeSegments script nums).2,
        ∃ a b, seg.start_time = some a ∧ seg.end_time = some b ∧ a ≤ b)
    ∧ (mergeSegments script nums).2 ≠ []
    ∧ (mergeSegments script nums).2.length = (mergeSegments script nums).1.length := by
  have heq := mergeSegments_eq_runs script nums
  have hruns_ne : runs nums ≠ [] := by
    cases nums with
    | nil => exact absurd rfl hne
    | cons n rest =>
      obtain ⟨t, rs, hext⟩ := consRuns_head_ext rest [n] n
      simp [runs, hext]
  have hmem_ne : ∀ r ∈ runs nums, r ≠ [] := by
    intro r hr
    cases nums with
    | nil => simp [runs] at hr
    | cons n rest =>
      exact (consRuns_chains rest [n] n (by simp) (by simp) (by simp) r
        (by simpa [runs] using hr)).1
  have hflat : (runs nums).flatten = nums := by
    cases nums with
    | nil => rfl
    | cons n rest => simpa [runs] using consRuns_flatten rest [n] n
  refine ⟨?_, ?_, ?_⟩
  · intro seg hseg
    rw [heq] at hseg
    simp only [List.mem_map] at hseg
    obtain ⟨r, hr, rfl⟩ := hseg
    have hrne := hmem_ne r hr
    obtain ⟨m, hm1, hm2, _⟩ := accMin_spec script r hrne
    obtain ⟨M, hM1, hM2, _⟩ := accMax_spec script r hrne
    obtain ⟨n, hn⟩ := List.exists_mem_of_ne_nil r hrne
    have hnn : n ∈ nums := by
      rw [← hflat]
      exact List.mem_flatten.mpr ⟨r, hr, hn⟩
    exact ⟨m, M, by simp [segOfRun, hm1], by simp [segOfRun, hM1],
      le_trans (hm2 n hn) (le_trans (hwf n hnn) (hM2 n hn))⟩
  · rw [heq]
    simpa using hruns_ne
  · rw [heq]
    simp

/-- Closed instance of **C10** at a concrete sorted valid selection. -/
theorem merge_segment_invariants_witness :
    (mergeSegments demoScript [2, 3, 7]).2 ≠ []
    ∧ (mergeSegments demoScript [2, 3, 7]).2.length
        = (mergeSegments demoScript [2, 3, 7]).1.length :=
  ⟨(merge_segment_invariants demoScript [2, 3, 7] (by decide) (by decide)
      (by decide) (by decide)).2.1,
   (merge_segment_invariants demoScript [2, 3, 7] (by decide) (by decide)
      (by decide) (by decide)).2.2⟩

/-- **C3 counterexample.** Sorting does not deduplicate: the duplicate valid
index 1 contributes two Segments, and the sentence appears twice in the
merged output (`"a [...] a"`), contradicting "each valid index contributes
to at most one Segment and appears at most once in the merged output". -/
theorem duplicate_index_appears_twice :
    processChunk oneSentence ⟨none, some [.rint 1, .rint 1]⟩
      = .ok ⟨"a" ++ " [...] " ++ "a",
             [⟨"a", some 0, some 1⟩, ⟨"a", some 0, some 1⟩], ""⟩
    ∧ (mergeSegments oneSentence [1, 1]).2.length = 2 := ⟨rfl, rfl⟩

/-- **C3 amended.** Duplicate valid indices are *not* removed by the
ascending sort: each duplicate occurrence survives sorting and, because a
repeated index is never consecutive to itself (`n ≠ n + 1`), starts its own
Segment, so a twice-selected sentence appears once per occurrence in the
merged output. -/
theorem duplicate_indices_each_form_segment (script : List Sentence) (n : ℕ)
    (title : Option String) (h1 : 1 ≤ n) (h2 : n ≤ script.length) :
    processChunk script ⟨title, some [.rint (n : ℤ), .rint (n : ℤ)]⟩
      = .ok ⟨(sentAt script n).text ++ " [...] " ++ (sentAt script n).text,
             [⟨(sentAt script n).text, some (sentAt script n).start_time,
               some (sentAt script n).end_time⟩,
              ⟨(sentAt script n).text, some (sentAt script n).start_time,
               some (sentAt script n).end_time⟩],
             title.getD ""⟩ := by
  have hc : coerceValid script.length (.rint (n : ℤ)) = some n := by
    rw [coerceValid, coerceOne, Option.some_bind,
      if_pos ⟨by exact_mod_cast h1, by exact_mod_cast h2⟩]
    simp
  have hv : validNumbers script.length [.rint (n : ℤ), .rint (n : ℤ)] = [n, n] := by
    simp [validNumbers, hc]
  have hs : pySort (fun a b => decide (a < b)) [n, n] = [n, n] := by
    simp [pySort, pyInsert]
  have hruns : runs [n, n] = [[n], [n]] := by
    rw [runs, consRuns, if_neg (by omega), consRuns]
  have hmerge := mergeSegments_eq_runs script [n, n]
  rw [hruns] at hmerge
  simp only [processChunk, hv, hs, hmerge]
  simp [pyJoin, runText, segOfRun, accMin, accMax, updateMin, updateMax]

/-- Closed instance of the amended **C3**. -/
theorem duplicate_indices_each_form_segment_witness :
    processChunk oneSentence ⟨some "T", some [.rint ((1 : ℕ) : ℤ), .rint ((1 : ℕ) : ℤ)]⟩
      = .ok ⟨(sentAt oneSentence 1).text ++ " [...] " ++ (sentAt oneSentence 1).text,
             [⟨(sentAt oneSentence 1).text, some (sentAt oneSentence 1).start_time,
               some (sentAt oneSentence 1).end_time⟩,
              ⟨(sentAt oneSentence 1).text, some (sentAt oneSentence 1).start_time,
               some (sentAt oneSentence 1).end_time⟩],
             (some "T").getD ""⟩ :=
  duplicate_indices_each_form_segment oneSentence 1 (some "T") (by decide) (by decide)

/-- Consuming `k ≤ 30` consecutive throttles from a fresh call advances
`retry_count` to `k`, sleeping `min(2^(n-1), 16)` seconds before the `n`-th
retry. -/
theorem runRetry_replicate (script : List Sentence) :
    ∀ (k j : ℕ) (rest : List CallOutcome), j + k ≤ 30 →
      runRetry script (List.replicate k (.clientError "ThrottlingException") ++ rest) j
        = ((runRetry script rest (j + k)).1,
           (List.range k).map (fun i => min (2 ^ (j + i)) 16)
             ++ (runRetry script rest (j + k)).2) := by
  intro k
  induction k with
  | zero => intro j rest _; simp
  | succ k ih =>
    intro j rest hk
    rw [List.replicate_succ, List.cons_append, runRetry, if_pos ⟨rfl, by omega⟩,
      ih (j + 1) rest (by omega)]
    have harith : j + 1 + k = j + (k + 1) := by omega
    rw [harith, List.range_succ_eq_map, List.map_cons, List.map_map]
    refine congrArg (fun l => ((runRetry script rest (j + (k + 1))).1,
      min (2 ^ (j + 0)) 16 :: (l ++ (runRetry script rest (j + (k + 1))).2))) ?_
    refine List.map_congr_left ?_
    intro i _
    have : j + 1 + i = j + (i + 1) := by omega
    simp [Function.comp, this]

/-- **C5.** Exactly the rate-limit signal (`ThrottlingException`) is retried:
while `retry_count < 30` a throttle costs one `min(2^retry_count, 16)`-second
sleep (so the `n`-th retry is delayed `min(2^(n-1), 16)` seconds) and the
loop continues with `retry_count + 1`; a throttle at the ceiling propagates
the client error; every other client error propagates at once; a structural
or validation failure (`.error` from response processing — bad JSON, missing
`selected_numbers`, zero valid indices) propagates at once and is never
retried; a fresh call absorbs up to 30 throttles with delays
`[min(2^0,16), …, min(2^(k-1),16)]`, and 31 consecutive throttles exhaust
the ceiling and propagate the rate-limit failure. -/
theorem retry_policy :
    (∀ script rest rc, rc < 30 →
        runRetry script (.clientError "ThrottlingException" :: rest) rc
          = ((runRetry script rest (rc + 1)).1,
             min (2 ^ rc) 16 :: (runRetry script rest (rc + 1)).2))
    ∧ (∀ script rest rc, 30 ≤ rc →
        runRetry script (.clientError "ThrottlingException" :: rest) rc
          = (.errClient "ThrottlingException", []))
    ∧ (∀ script rest rc code, code ≠ "ThrottlingException" →
        runRetry script (.clientError code :: rest) rc = (.errClient code, []))
    ∧ (∀ script rest rc resp m, processResponse script resp = .error m →
        runRetry script (.modelReply resp :: rest) rc = (.errValue m, []))
    ∧ (∀ script rest rc resp d, processResponse script resp = .ok d →
        runRetry script (.modelReply resp :: rest) rc = (.ok d, []))
    ∧ (∀ script (k : ℕ) rest, k ≤ 30 →
        runRetry script (List.replicate k (.clientError "ThrottlingException") ++ rest) 0
          = ((runRetry script rest k).1,
             (List.range k).map (fun i => min (2 ^ i) 16) ++ (runRetry script rest k).2))
    ∧ (∀ script rest,
        runRetry script (List.replicate 31 (.clientError "ThrottlingException") ++ rest) 0
          = (.errClient "ThrottlingException",
             (List.range 30).map (fun i => min (2 ^ i) 16))) := by
  have habort : ∀ script (rest : List CallOutcome) rc,  30 ≤ rc →
      runRetry script (.clientError "ThrottlingException" :: rest) rc
        = (.errClient "ThrottlingException", []) := by
    intro script rest rc h
    rw [runRetry, if_neg (fun hp => by omega)]
  refine ⟨?_, habort, ?_, ?_, ?_, ?_, ?_⟩
  · intro script rest rc h
    rw [runRetry, if_pos ⟨rfl, h⟩]
  · intro script rest rc code h
    rw [runRetry, if_neg (fun hp => h hp.1)]
  · intro script rest rc resp m h
    rw [runRetry, h]
  · intro script rest rc resp d h
    rw [runRetry, h]
  · intro script k rest hk
    have := runRetry_replicate script k 0 rest (by omega)
    simpa using this
  · intro script rest
    have h31 : (List.replicate 31 (CallOutcome.clientError "ThrottlingException") ++ rest)
        = List.replicate 30 (CallOutcome.clientError "ThrottlingException")
            ++ (CallOutcome.clientError "ThrottlingException" :: rest) := by
      rw [List.replicate_succ', List.append_assoc, List.singleton_append]
    rw [h31, runRetry_replicate script 30 0
      (CallOutcome.clientError "ThrottlingException" :: rest) (by omega)]
    rw [show (0 + 30 : ℕ) = 30 from rfl,
      habort script rest 30 (le_refl 30)]
    simp

/-- **C6.** When every element of `selected_numbers` is non-numeric or out
of range (it coerces to no valid index), the Highlight Selector raises the
domain error "No valid sentence numbers found" and `process_topic` writes
nothing to the metadata store. -/
theorem empty_valid_selection_rejected (script : List Sentence) (raw : List RawNum)
    (title : Option String) (topic uuid owner : String) (index : ℕ) (now : PyDateTime)
    (hall : ∀ x ∈ raw, coerceValid script.length x = none) :
    processChunk script ⟨title, some raw⟩ = .error "No valid sentence numbers found"
    ∧ (process_topic script [.modelReply (.parsed ⟨title, some raw⟩)]
         topic uuid owner index now).2 = [] := by
  have hv : validNumbers script.length raw = [] := List.filterMap_eq_nil_iff.mpr hall
  have hp : processChunk script ⟨title, some raw⟩
      = .error "No valid sentence numbers found" := by
    simp [processChunk, hv]
  exact ⟨hp, by
    simp [process_topic, extract_and_process_section, runRetry, processResponse, hp]⟩

/-- Closed instance of **C6**: `[0, "bad", 999]` against a one-sentence
script leaves no valid index, raises, and persists nothing. -/
theorem empty_valid_selection_rejected_witness :
    processChunk oneSentence ⟨none, some [.rint 0, .rstr "bad", .rint 999]⟩
      = .error "No valid sentence numbers found"
    ∧ (process_topic oneSentence
         [.modelReply (.parsed ⟨none, some [.rint 0, .rstr "bad", .rint 999]⟩)]
         "t" "u" "o" 1 demoNow).2 = [] :=
  empty_valid_selection_rejected oneSentence [.rint 0, .rstr "bad", .rint 999] none
    "t" "u" "o" 1 demoNow (by decide)

/-- Evaluation scheme for `convert_seconds_to_timecode` at a concrete input:
supply the intermediate `divmod` results and truncations. -/
theorem convert_eval (s : ℚ) (H M S F : ℤ) (r1 r2 : ℚ)
    (h1 : ⌊s / 3600⌋ = H) (h2 : s - 3600 * (H : ℚ) = r1)
    (h3 : ⌊r1 / 60⌋ = M) (h4 : r1 - 60 * (M : ℚ) = r2)
    (h5 : truncRat r2 = S) (h6 : truncRat ((r2 - (S : ℚ)) * 24) = F) :
    convert_seconds_to_timecode s
      = fmt2 H ++ ":" ++ fmt2 M ++ ":" ++ fmt2 S ++ ":" ++ fmt2 F := by
  simp only [convert_seconds_to_timecode]
  rw [h1, h2, h3, h4, h5, h6]

theorem tc_eval_ten : convert_seconds_to_timecode 10 = "00:00:10:00" := by
  rw [convert_eval 10 0 0 10 0 10 10 (by norm_num [Int.floor_eq_iff])
    (by push_cast; norm_num) (by norm_num [Int.floor_eq_iff]) (by push_cast; norm_num)
    (by norm_num [truncRat, Int.floor_eq_iff]) (by norm_num [truncRat, Int.floor_eq_iff])]
  decide

theorem tc_eval_forty : convert_seconds_to_timecode 40 = "00:00:40:00" := by
  rw [convert_eval 40 0 0 40 0 40 40 (by norm_num [Int.floor_eq_iff])
    (by push_cast; norm_num) (by norm_num [Int.floor_eq_iff]) (by push_cast; norm_num)
    (by norm_num [truncRat, Int.floor_eq_iff]) (by norm_num [truncRat, Int.floor_eq_iff])]
  decide

theorem tc_eval_ninety : convert_seconds_to_timecode 90 = "00:01:30:00" := by
  rw [convert_eval 90 0 1 30 0 90 30 (by norm_num [Int.floor_eq_iff])
    (by push_cast; norm_num) (by norm_num [Int.floor_eq_iff]) (by push_cast; norm_num)
    (by norm_num [truncRat, Int.floor_eq_iff]) (by norm_num [truncRat, Int.floor_eq_iff])]
  decide

theorem tc_eval_onetwenty : convert_seconds_to_timecode 120 = "00:02:00:00" := by
  rw [convert_eval 120 0 2 0 0 120 0 (by norm_num [Int.floor_eq_iff])
    (by push_cast; norm_num) (by norm_num [Int.floor_eq_iff]) (by push_cast; norm_num)
    (by norm_num [truncRat, Int.floor_eq_iff]) (by norm_num [truncRat, Int.floor_eq_iff])]
  decide

/-- **C7.** The Timeframe Consolidator discards entries missing either
timestamp (an all-discarded list yields the 400 failure result); otherwise
it succeeds with `total_duration` the `int`-truncated sum of `end - start`
over the *kept* entries (sorting cannot change the sum), and its formatted
output is the kept pairs sorted ascending by start time, each end rendered
as a timecode.  In particular the unsorted `[{90,120},{10,40}]` gives
duration 60 with the `{10,40}` entry listed first. -/
theorem consolidator_filters_sorts_sums :
    (∀ tfs, keptPairs tfs = [] → consolidate tfs = ⟨400, false, 0, []⟩)
    ∧ (∀ tfs, keptPairs tfs ≠ [] →
        (consolidate tfs).statusCode = 200
        ∧ (consolidate tfs).success = true
        ∧ (consolidate tfs).duration
            = truncRat (((keptPairs tfs).map (fun p => p.2 - p.1)).sum)
        ∧ (consolidate tfs).timeframes
            = (pySort (fun a b => decide (a.1 < b.1)) (keptPairs tfs)).map
                (fun p => (convert_seconds_to_timecode p.1, convert_seconds_to_timecode p.2))
        ∧ List.Perm (pySort (fun a b => decide (a.1 < b.1)) (keptPairs tfs)) (keptPairs tfs)
        ∧ List.Pairwise (fun x y : ℚ × ℚ => x.1 ≤ y.1)
            (pySort (fun a b => decide (a.1 < b.1)) (keptPairs tfs)))
    ∧ consolidate demoFrames
        = ⟨200, true, 60,
           [("00:00:10:00", "00:00:40:00"), ("00:01:30:00", "00:02:00:00")]⟩ := by
  have hperm : ∀ l : List (ℚ × ℚ),
      List.Perm (pySort (fun a b => decide (a.1 < b.1)) l) l :=
    fun l => pySort_perm _ l
  refine ⟨?_, ?_, ?_⟩
  · intro tfs h
    simp [consolidate, h, pySort]
  · intro tfs h
    have hsne : pySort (fun a b => decide (a.1 < b.1)) (keptPairs tfs) ≠ [] := by
      intro hnil
      exact h (((hnil ▸ hperm (keptPairs tfs)).symm).eq_nil)
    cases hs : pySort (fun a b => decide (a.1 < b.1)) (keptPairs tfs) with
    | nil => exact absurd hs hsne
    | cons t ts =>
      have hperm2 : List.Perm (t :: ts) (keptPairs tfs) := hs ▸ hperm (keptPairs tfs)
      refine ⟨by simp [consolidate, hs], by simp [consolidate, hs], ?_,
        by simp [consolidate, hs], hperm2, ?_⟩
      · have hsum : ((t :: ts).map (fun p : ℚ × ℚ => p.2 - p.1)).sum
            = ((keptPairs tfs).map (fun p => p.2 - p.1)).sum :=
          (hperm2.map (fun p : ℚ × ℚ => p.2 - p.1)).sum_eq
        have hdur : (consolidate tfs).duration
            = truncRat (((t :: ts).map (fun p : ℚ × ℚ => p.2 - p.1)).sum) := by
          simp [consolidate, hs]
        rw [hdur]
        exact congrArg truncRat hsum
      · have hpw := pySort_pairwise (fun a b : ℚ × ℚ => decide (a.1 < b.1))
          (by
            intro a b hab
            simp only [decide_eq_true_eq] at hab
            simpa using not_lt_of_gt hab)
          (by
            intro a b c hba hcb
            simp only [decide_eq_false_iff_not, not_lt] at hba hcb ⊢
            exact le_trans hba hcb)
          (keptPairs tfs)
        rw [hs] at hpw
        refine hpw.imp ?_
        intro x y hxy
        simp only [decide_eq_false_iff_not, not_lt] at hxy
        exact hxy
  · have hk : keptPairs demoFrames = [(90, 120), (10, 40)] := rfl
    have hs : pySort (fun a b => decide (a.1 < b.1)) (keptPairs demoFrames)
        = [((10 : ℚ), (40 : ℚ)), (90, 120)] := by decide
    rw [consolidate, hs]
    simp only [List.map_cons, List.map_nil, tc_eval_ten, tc_eval_forty,
      tc_eval_ninety, tc_eval_onetwenty, List.sum_cons, List.sum_nil]
    refine congrArg (fun d => ConsolidateOutput.mk 200 true d
      [("00:00:10:00", "00:00:40:00"), ("00:01:30:00", "00:02:00:00")]) ?_
    norm_num [truncRat, Int.floor_eq_iff]

/-- For positive divisors, the `divmod` remainder is non-negative. -/
theorem divmod_rem_nonneg (x c : ℚ) (hc : 0 < c) : 0 ≤ x - c * (⌊x / c⌋ : ℚ) := by
  have h1 : x - c * (⌊x / c⌋ : ℚ) = c * Int.fract (x / c) := by
    rw [Int.fract]
    field_simp
  rw [h1]
  exact mul_nonneg (le_of_lt hc) (Int.fract_nonneg _)

/-- **C8.** For non-negative seconds the conversion agrees with the
specification's formulas — hours `= ⌊s/3600⌋`, minutes `= ⌊remainder/60⌋`,
whole seconds `= ⌊remainder⌋`, frames `= ⌊fractional_part · 24⌋`, each
rendered two-digit zero-padded — and `convert(125.5) = "00:02:05:12"`. -/
theorem timecode_conversion_spec :
    (∀ s : ℚ, 0 ≤ s → convert_seconds_to_timecode s = specTimecode s)
    ∧ convert_seconds_to_timecode (125.5 : ℚ) = "00:02:05:12" := by
  constructor
  · intro s _
    have h2 : 0 ≤ (s - 3600 * (⌊s / 3600⌋ : ℚ))
        - 60 * (⌊(s - 3600 * (⌊s / 3600⌋ : ℚ)) / 60⌋ : ℚ) :=
      divmod_rem_nonneg (s - 3600 * (⌊s / 3600⌋ : ℚ)) 60 (by norm_num)
    have hfr : 0 ≤ ((s - 3600 * (⌊s / 3600⌋ : ℚ))
        - 60 * (⌊(s - 3600 * (⌊s / 3600⌋ : ℚ)) / 60⌋ : ℚ))
        - (⌊(s - 3600 * (⌊s / 3600⌋ : ℚ))
            - 60 * (⌊(s - 3600 * (⌊s / 3600⌋ : ℚ)) / 60⌋ : ℚ)⌋ : ℚ) := by
      have := Int.fract_nonneg ((s - 3600 * (⌊s / 3600⌋ : ℚ))
        - 60 * (⌊(s - 3600 * (⌊s / 3600⌋ : ℚ)) / 60⌋ : ℚ))
      rwa [Int.fract] at this
    simp only [convert_seconds_to_timecode, specTimecode, truncRat, if_pos h2,
      if_pos (mul_nonneg hfr (by norm_num : (0 : ℚ) ≤ 24))]
  · rw [convert_eval (125.5 : ℚ) 0 2 5 12 125.5 5.5 (by norm_num [Int.floor_eq_iff])
      (by push_cast; norm_num) (by norm_num [Int.floor_eq_iff]) (by push_cast; norm_num)
      (by norm_num [truncRat, Int.floor_eq_iff]) (by norm_num [truncRat, Int.floor_eq_iff])]
    decide

/-- **C4 counterexample.** Consolidation is not idempotent: the first run on
a 10s–40s segment succeeds with duration 30, but — because it overwrites
`timeframes` with timecode-formatted entries that have no
`start_time`/`end_time` — the second run discards every entry and returns
the 400 failure result with duration 0 and no timecodes. -/
theorem reconsolidation_not_idempotent :
    (consolidate oneFrame).success = true
    ∧ (consolidate oneFrame).duration = 30
    ∧ consolidate (updateRecord oneFrame) = ⟨400, false, 0, []⟩ := by
  refine ⟨by decide, ?_, by decide⟩
  have hs : pySort (fun a b => decide (a.1 < b.1)) (keptPairs oneFrame)
      = [((10 : ℚ), (40 : ℚ))] := by decide
  rw [consolidate, hs]
  norm_num [truncRat, Int.floor_eq_iff]

/-- **C4 amended.** Re-running the Timeframe Consolidator on a record it has
already consolidated does *not* reproduce the first run's result: the first
run's overwrite leaves only `StartTimecode`/`EndTimecode` entries, so the
second run finds zero entries with `start_time`/`end_time`, returns the 400
failure result with duration 0 and empty timeframes, and writes nothing (the
record is left unchanged). -/
theorem reconsolidation_fails (tfs : List StoredFrame)
    (h : (consolidate tfs).success = true) :
    consolidate (updateRecord tfs) = ⟨400, false, 0, []⟩
    ∧ updateRecord (updateRecord tfs) = updateRecord tfs := by
  have hkept : keptPairs (updateRecord tfs) = [] := by
    rw [updateRecord, if_pos h]
    simp [keptPairs, List.filterMap_map, Function.comp]
  have h400 : consolidate (updateRecord tfs) = ⟨400, false, 0, []⟩ := by
    rw [consolidate, hkept]
    simp [pySort]
  refine ⟨h400, ?_⟩
  rw [updateRecord, h400]
  simp

/-- Closed instance of the amended **C4**. -/
theorem reconsolidation_fails_witness :
    consolidate (updateRecord oneFrame) = ⟨400, false, 0, []⟩
    ∧ updateRecord (updateRecord oneFrame) = updateRecord oneFrame :=
  reconsolidation_fails oneFrame (by decide)

/-- Appending to a non-empty string keeps it non-empty. -/
theorem append_ne_empty_left (w p : String) (h : w ≠ "") : w ++ p ≠ "" := by
  intro hc
  apply h
  have hd := congrArg String.data hc
  rw [String.data_append] at hd
  have hw : w.data = [] := (List.append_eq_nil.mp hd).1
  exact String.ext (by simp [hw])

/-- Appending a non-empty string yields a non-empty string. -/
theorem append_ne_empty_right (w p : String) (h : p ≠ "") : w ++ p ≠ "" := by
  intro hc
  apply h
  have hd := congrArg String.data hc
  rw [String.data_append] at hd
  have hp : p.data = [] := (List.append_eq_nil.mp hd).2
  exact String.ext (by simp [hp])

theorem appendToLast_eq_nil_iff (p : String) (l : List String) :
    appendToLast p l = [] ↔ l = [] := by
  cases l with
  | nil => simp [appendToLast]
  | cons w ws =>
    cases ws with
    | nil => simp [appendToLast]
    | cons w2 ws2 => simp [appendToLast]

theorem appendToLast_texts (p : String) (l : List String)
    (h : ∀ w ∈ l, w ≠ "") : ∀ w ∈ appendToLast p l, w ≠ "" := by
  induction l with
  | nil => simp [appendToLast]
  | cons w ws ih =>
    cases ws with
    | nil =>
      intro x hx
      simp only [appendToLast, List.mem_singleton] at hx
      exact hx ▸ append_ne_empty_left w p (h w (by simp))
    | cons w2 ws2 =>
      intro x hx
      rw [show appendToLast p (w :: w2 :: ws2) = w :: appendToLast p (w2 :: ws2) from rfl] at hx
      rcases List.mem_cons.mp hx with hh | hh
      · exact hh ▸ h w (by simp)
      · exact ih (fun y hy => h y (List.mem_cons_of_mem _ hy)) x hh

/-- Joining a non-empty list of non-empty words with single spaces is
non-empty. -/
theorem pyJoin_ne_empty (l : List String) (hne : l ≠ []) (h : ∀ w ∈ l, w ≠ "") :
    pyJoin " " l ≠ "" := by
  match l, hne with
  | [w], _ => simpa [pyJoin] using h w (by simp)
  | w :: w2 :: ws, _ =>
    rw [show pyJoin " " (w :: w2 :: ws) = w ++ " " ++ pyJoin " " (w2 :: ws) from rfl]
    exact append_ne_empty_left _ _ (append_ne_empty_right w " " (by decide))

/-- The reconstitution loop preserves its invariant over well-formed,
chronologically ordered word events. -/
theorem foldl_stepEvent_inv (events : List TranscriptEvent) :
    ∀ st : RecState, RecInv st →
      (∀ ev ∈ events, WFEvent ev) →
      List.Pairwise (· ≤ ·) (wordStarts events) →
      (∀ a, st.sstart = some a → ∀ q ∈ wordStarts events, a ≤ q) →
      RecInv (events.foldl stepEvent st) := by
  induction events with
  | nil =>
    intro st h _ _ _
    exact h
  | cons ev rest ih =>
    intro st hinv hwf hsort hfut
    obtain ⟨hscript, hiff, htexts, hse⟩ := hinv
    rw [List.foldl_cons]
    cases ev with
    | word w s e =>
      obtain ⟨hwne, hsle⟩ : w ≠ "" ∧ s ≤ e := hwf _ (List.mem_cons_self _ _)
      have hws : wordStarts (TranscriptEvent.word w s e :: rest)
          = s :: wordStarts rest := by
        simp [wordStarts]
      rw [hws] at hsort hfut
      cases hss : st.sstart with
      | none =>
        have hstep : stepEvent st (.word w s e)
            = ⟨st.script, st.current ++ [w], some s, some e⟩ := by
          simp [stepEvent, hss]
        rw [hstep]
        refine ih _ ⟨hscript, by simp, ?_, ?_⟩
          (fun x hx => hwf x (List.mem_cons_of_mem _ hx))
          (List.Pairwise.of_cons hsort) ?_
        · intro x hx
          rcases List.mem_append.mp hx with hh | hh
          · exact htexts x hh
          · exact (List.mem_singleton.mp hh) ▸ hwne
        · intro a ha
          simp only [Option.some_inj] at ha
          exact ⟨e, rfl, ha ▸ hsle⟩
        · intro a ha q hq
          simp only [Option.some_inj] at ha
          subst ha
          exact (List.pairwise_cons.mp hsort).1 q hq
      | some a0 =>
        have hstep : stepEvent st (.word w s e)
            = ⟨st.script, st.current ++ [w], some a0, some e⟩ := by
          simp [stepEvent, hss]
        rw [hstep]
        have hsq : a0 ≤ s := hfut a0 hss s (List.mem_cons_self _ _)
        refine ih _ ⟨hscript, by simp, ?_, ?_⟩
          (fun x hx => hwf x (List.mem_cons_of_mem _ hx))
          (List.Pairwise.of_cons hsort) ?_
        · intro x hx
          rcases List.mem_append.mp hx with hh | hh
          · exact htexts x hh
          · exact (List.mem_singleton.mp hh) ▸ hwne
        · intro a ha
          simp only [Option.some_inj] at ha
          subst ha
          exact ⟨e, rfl, le_trans hsq hsle⟩
        · intro a ha q hq
          simp only [Option.some_inj] at ha
          subst ha
          exact hfut a0 hss q (List.mem_cons_of_mem _ hq)
    | punct p =>
      have hws : wordStarts (TranscriptEvent.punct p :: rest) = wordStarts rest := by
        simp [wordStarts]
      rw [hws] at hsort hfut
      by_cases hterm : p ∈ ([".", "?", "!"] : List String)
      · have hstep : stepEvent st (.punct p)
            = ⟨st.script
                ++ [⟨pyJoin " " (appendToLast p st.current), st.sstart, st.lend⟩],
               [], none, st.lend⟩ := by
          simp [stepEvent, hterm]
        rw [hstep]
        refine ih _ ⟨?_, by simp, by simp, by simp⟩
          (fun x hx => hwf x (List.mem_cons_of_mem _ hx)) hsort (by simp)
        intro x hx
        rcases List.mem_append.mp hx with hh | hh
        · exact hscript x hh
        · rw [List.mem_singleton.mp hh]
          cases hcur : st.current with
          | nil =>
            right
            refine ⟨by simp [hcur, appendToLast, pyJoin], ?_⟩
            show st.sstart = none
            exact hiff.mp hcur
          | cons c cs =>
            left
            have hsome : ∃ a, st.sstart = some a := by
              cases hss : st.sstart with
              | none => exact absurd (hiff.mpr hss) (by simp [hcur])
              | some a => exact ⟨a, rfl⟩
            obtain ⟨a, hss⟩ := hsome
            obtain ⟨eL, hle, hae⟩ := hse a hss
            refine ⟨?_, a, eL, by simp [hss], by simp [hle], hae⟩
            apply pyJoin_ne_empty
            · rw [Ne, appendToLast_eq_nil_iff]
              simp
            · exact appendToLast_texts p _ (hcur ▸ htexts)
      · have hstep : stepEvent st (.punct p)
            = ⟨st.script, appendToLast p st.current, st.sstart, st.lend⟩ := by
          simp [stepEvent, hterm]
        rw [hstep]
        refine ih _ ⟨hscript, ?_, appendToLast_texts p _ htexts, hse⟩
          (fun x hx => hwf x (List.mem_cons_of_mem _ hx)) hsort hfut
        rw [appendToLast_eq_nil_iff]
        exact hiff

/-- **C2 counterexample.** A terminator punctuation with no accumulated
words is *not* a no-op: `[Punctuation "."]` alone emits a sentence with
empty text and no timestamps (the emission is outside the
`if current_sentence:` guard), and after a completed sentence a stray `"."`
emits an empty-text sentence carrying the previous sentence's end time. -/
theorem terminator_on_empty_accumulator_emits :
    create_timestamped_script [.punct "."] = [⟨"", none, none⟩]
    ∧ create_timestamped_script [.word "Hi" 0 1, .punct ".", .punct "."]
        = [⟨"Hi.", some 0, some 1⟩, ⟨"", none, some 1⟩] := ⟨rfl, rfl⟩

/-- **C2 amended.** A *non-terminator* punctuation event with no accumulated
words is a no-op; a terminator with no accumulated words emits a sentence
with empty text and no start time.  Under well-formed input (non-empty word
texts, each word's start ≤ its end, word start times non-decreasing across
the stream) every emitted sentence is either such an empty artefact or has
non-empty text and `some` timestamps with start ≤ end. -/
theorem reconstitutor_sentences_wellformed :
    (∀ events, (∀ ev ∈ events, WFEvent ev) →
        List.Pairwise (· ≤ ·) (wordStarts events) →
        ∀ s ∈ create_timestamped_script events, GoodSentence s)
    ∧ (∀ (st : RecState) p, st.current = [] → p ∉ ([".", "?", "!"] : List String) →
        stepEvent st (.punct p) = st)
    ∧ (∀ (st : RecState) p, st.current = [] → p ∈ ([".", "?", "!"] : List String) →
        stepEvent st (.punct p)
          = ⟨st.script ++ [⟨"", st.sstart, st.lend⟩], [], none, st.lend⟩) := by
  refine ⟨?_, ?_, ?_⟩
  · intro events hwf hsort s hs
    obtain ⟨hscript, hiff, htexts, hse⟩ := foldl_stepEvent_inv events ⟨[], [], none, none⟩
      ⟨by simp, by simp, by simp, by simp⟩ hwf hsort (by simp)
    rw [create_timestamped_script] at hs
    by_cases hc : (events.foldl stepEvent ⟨[], [], none, none⟩).current ≠ []
        ∧ (events.foldl stepEvent ⟨[], [], none, none⟩).sstart.isSome
    · rw [if_pos hc] at hs
      rcases List.mem_append.mp hs with hh | hh
      · exact hscript s hh
      · rw [List.mem_singleton.mp hh]
        obtain ⟨a, hss⟩ := Option.isSome_iff_exists.mp hc.2
        obtain ⟨eL, hle, hae⟩ := hse a hss
        left
        refine ⟨?_, a, eL, by simp [hss], by simp [hle], hae⟩
        exact pyJoin_ne_empty _ hc.1 htexts
    · rw [if_neg hc] at hs
      exact hscript s hs
  · intro st p h hp
    cases st with
    | mk sc cur ss le =>
      simp only at h
      subst h
      simp [stepEvent, hp, appendToLast]
  · intro st p h hp
    cases st with
    | mk sc cur ss le =>
      simp only at h
      subst h
      simp [stepEvent, hp, appendToLast, pyJoin]

/-- **C9 counterexample.** The stored timestamps are *not* second-precision:
`isoformat()[:-6] + "Z"` removes the `+00:00` offset, not the fractional
part, so a clock reading with a non-zero microsecond component is persisted
with its six sub-second digits before the `Z`. -/
theorem stored_timestamp_keeps_microseconds :
    highlightTimestamp demoNow = "2024-05-06T07:08:09.123456Z".data
    ∧ '.' ∈ highlightTimestamp demoNow
    ∧ (process_topic oneSentence [.modelReply (.parsed ⟨none, some [.rint 1]⟩)]
         "t" "u" "o" 1 demoNow).2.map Highlight.createdAt
        = ["2024-05-06T07:08:09.123456Z".data] :=
  ⟨by decide, by decide, by decide⟩

/-- **C9 amended.** Stored timestamps are the UTC clock reading rendered as
`YYYY-MM-DDTHH:MM:SS[.ffffff]Z`: the slice `[:-6]` removes exactly the
`+00:00` offset and the trailing `Z` is appended, so the timestamp is
second-precision exactly when the clock's microsecond component is zero;
both `createdAt` and `updatedAt` of every written highlight equal this
timestamp. -/
theorem timestamp_format (d : PyDateTime) :
    highlightTimestamp d
      = isoBase d ++ (if d.microsecond = 0 then [] else '.' :: padNum 6 d.microsecond)
          ++ ['Z']
    ∧ (d.microsecond = 0 → highlightTimestamp d = isoBase d ++ ['Z'])
    ∧ (∀ script outcomes topic uuid owner index h,
        h ∈ (process_topic script outcomes topic uuid owner index d).2 →
        h.createdAt = highlightTimestamp d ∧ h.updatedAt = highlightTimestamp d) := by
  have hmain : highlightTimestamp d
      = isoBase d ++ (if d.microsecond = 0 then [] else '.' :: padNum 6 d.microsecond)
          ++ ['Z'] := by
    rw [highlightTimestamp, isoformatUTC, List.length_append]
    rw [show (['+', '0', '0', ':', '0', '0'] : List Char).length = 6 from rfl,
      Nat.add_sub_cancel, List.take_left]
  refine ⟨hmain, ?_, ?_⟩
  · intro h0
    rw [hmain, if_pos h0]
    simp
  · intro script outcomes topic uuid owner index h hmem
    rw [process_topic] at hmem
    rcases hre : extract_and_process_section script outcomes with ⟨r, sl⟩
    rw [hre] at hmem
    cases r with
    | ok dd =>
      simp only [List.mem_singleton] at hmem
      rw [hmem]
      exact ⟨rfl, rfl⟩
    | errClient c => simp at hmem
    | errValue m => simp at hmem
    | noOutcome => simp at hmem
